import Mathlib

/-!
Verification development for the text-art repository.

The development embeds the two renderers of the repository —
`renderCfonts` (src/cfonts-renderer.ts) and `renderBitmap`
(src/bitmap-renderer.ts) — together with the catalog comparator and the
batch font loader of the application component, as executable Lean
definitions, and proves the specified properties about them.

Conventions of the embedding:
* JavaScript strings are modelled by `String` (a list of characters);
  text inputs are passed as `List Char` and iterated per character, which
  agrees with JavaScript's per-code-unit indexing on the Basic
  Multilingual Plane characters the fonts use.
* `text.toUpperCase()` is modelled by mapping `Char.toUpper`; the inputs
  used by the theorems are case-stable under both.
* Fallible operations return `Option`; a caught exception is `none`.
* Bounded loops of the source are structural recursions; the single
  regex-driven scan (`stripColorTags`) uses an explicit fuel argument
  equal to the input length, which the scan can never exhaust, so the
  function stays executable by kernel reduction.
-/

/-- JavaScript `\s` (whitespace) character class, as used by the
`replace(/\s+$/, '')` trailing trim of the cfonts renderer. -/
def wsChar (c : Char) : Bool :=
  ('\t' ≤ c && c ≤ '\u000d') || c = ' ' || c = '\u00a0' || c = '\u1680' ||
  ('\u2000' ≤ c && c ≤ '\u200a') || c = '\u2028' || c = '\u2029' ||
  c = '\u202f' || c = '\u205f' || c = '\u3000' || c = '\ufeff'

/-- `line.replace(/\s+$/, '')`: drop the maximal run of trailing
whitespace characters. -/
def rtrim (s : String) : String :=
  ⟨((s.data.reverse).dropWhile wsChar).reverse⟩

/-- `Array.prototype.join('\n')` on the list of output rows. -/
def joinLines : List String → String
  | [] => ""
  | [s] => s
  | s :: rest => s ++ "\n" ++ joinLines rest

/-! ### stripColorTags (src/cfonts-renderer.ts)

`str.replace(/<\/?c\d+>/g, '')`: a left-to-right scan removing every
occurrence of `<c<digits>>` or `</c<digits>>` (at least one digit). -/

/-- After the digits of a candidate tag: consume further digits until the
closing `>`; any other character means the candidate does not match. -/
def tagDigits : List Char → Option (List Char)
  | [] => none
  | c :: rest => if c = '>' then some rest else if c.isDigit then tagDigits rest else none

/-- Try to match the remainder of a color tag after its opening `<`:
an optional `/`, the letter `c`, one or more digits, and `>`.
Returns the characters after the tag on success. -/
def tagAfterLt (cs : List Char) : Option (List Char) :=
  let body := fun l => match l with
    | 'c' :: d :: rest => if d.isDigit then tagDigits rest else none
    | _ => none
  match cs with
  | '/' :: rest => body rest
  | _ => body cs

/-- Fuelled scan for `stripColorTags`; the fuel never runs out when it
starts at the length of the input (each step consumes at least one
character). -/
def stripGo : Nat → List Char → List Char
  | 0, l => l
  | _, [] => []
  | fuel + 1, c :: cs =>
    if c = '<' then
      match tagAfterLt cs with
      | some rest => stripGo fuel rest
      | none => c :: stripGo fuel cs
    else c :: stripGo fuel cs

/-- `stripColorTags` of src/cfonts-renderer.ts: remove cfonts color
placeholder tags such as `<c1>` and `</c1>`. -/
def stripColorTags (s : String) : String :=
  ⟨stripGo s.data.length s.data⟩

/-! ### The cfonts data model (src/cfonts-renderer.ts, interface CfontsFont) -/

/-- The shape of one entry of the pre-bundled cfonts font data. -/
structure CfontsFont where
  chars : List (Char × List String)
  lines : Nat
  buffer : List String
  letterspace : Option (List String)
  letterspace_size : Nat
  colors : Nat
deriving DecidableEq

/-- `CFONTS_DATA[fontName]`: lookup of a font by name. -/
def lookupFont (data : List (String × CfontsFont)) (name : String) : Option CfontsFont :=
  (data.find? (fun p => p.1 = name)).map Prod.snd

/-- `chars[ch]`: lookup of a character's glyph rows. -/
def lookupChar (chars : List (Char × List String)) (c : Char) : Option (List String) :=
  (chars.find? (fun p => p.1 = c)).map Prod.snd

/-- `xs[line] || ''`: an out-of-range (or empty) row reads as the empty
string. -/
def getOrEmpty (xs : List String) (line : Nat) : String :=
  xs.getD line ""

/-- The spacing fragment appended for an unmapped character:
`letterspace ? stripColorTags(letterspace[line] || '  ') : '  '`. -/
def spacingFor (font : CfontsFont) (line : Nat) : String :=
  match font.letterspace with
  | some ls =>
    stripColorTags (if (getOrEmpty ls line) = "" then "  " else getOrEmpty ls line)
  | none => "  "

/-- `for (let line = 0; line < lineCount; line++) outputLines[line] += f(line)`:
append a per-row fragment to each row accumulator. -/
def appendEach : List String → (Nat → String) → List String
  | [], _ => []
  | s :: rest, f => (s ++ f 0) :: appendEach rest (fun line => f (line + 1))

/-- The body of the character loop of `renderCfonts`: one input character
(with its index) extends every row accumulator. -/
def processChar (font : CfontsFont) (inputLen : Nat) (acc : List String)
    (p : Nat × Char) : List String :=
  match lookupChar font.chars p.2 with
  | none =>
    -- space or unsupported character: add spacing
    appendEach acc (fun line => spacingFor font line)
  | some charData =>
    let acc1 := appendEach acc (fun line => stripColorTags (getOrEmpty charData line))
    -- add letter spacing between characters (not after last)
    if p.1 < inputLen - 1 then
      match font.letterspace with
      | some ls => appendEach acc1 (fun line => stripColorTags (getOrEmpty ls line))
      | none => acc1
    else acc1

/-- The row accumulators of `renderCfonts` after the character loop. -/
def renderedRows (font : CfontsFont) (text : List Char) : List String :=
  let input := text.map Char.toUpper
  (List.enum input).foldl (processChar font input.length) (List.replicate font.lines "")

/-- The final joined string of `renderCfonts`: each row trimmed of
trailing whitespace, rows joined by line breaks. -/
def joinedOf (font : CfontsFont) (text : List Char) : String :=
  joinLines ((renderedRows font text).map rtrim)

/-- `renderCfonts` of src/cfonts-renderer.ts, parameterised by the font
data table. -/
def renderCfonts (data : List (String × CfontsFont)) (text : List Char)
    (fontName : String) : Option String :=
  match lookupFont data fontName with
  | none => none
  | some font =>
    let result := joinedOf font text
    if result = "" then none else some result

/-! ### Sample font data

The generated bundle src/assets/cfonts-data.ts is not part of the
sources under verification, so the concrete table is partially
reconstructed; all general theorems below are proved for an arbitrary
table, and the reconstructed entries are used only for concrete
witnesses and counterexamples. -/

/-- Modelled from the spec: src/assets/cfonts-data.ts (the generated
cfonts bundle) is absent from the sources; the spec's data model gives
the field shape, and the application source hard-codes its logo as the
two-row output of the cfonts "tiny" font, fixing `lines = 2`,
single-space letterspacing, and the three-column glyphs used here.
Only this entry is reconstructed; the general theorems do not depend on
it. -/
def tinyFont : CfontsFont :=
  { chars := [('T', ["▀█▀", " █ "]), ('A', ["▄▀█", "█▀█"])]
  , lines := 2
  , buffer := ["", ""]
  , letterspace := some [" ", " "]
  , letterspace_size := 1
  , colors := 1 }

/-- Modelled from the spec: the supported cfonts font table (13 fonts per
the spec and README); only the "tiny" entry, reconstructed in
`tinyFont`, is carried, which suffices for every concrete witness. -/
def CFONTS_DATA : List (String × CfontsFont) := [("tiny", tinyFont)]

/-- The glyph-table font of the spec's concrete scenario: `lines = 2`,
`chars = {'A': ['/\\', '/  \\']}`, `letterspace = ['  ', '  ']`. -/
def exampleFont : CfontsFont :=
  { chars := [('A', ["/\\", "/  \\"])]
  , lines := 2
  , buffer := ["", ""]
  , letterspace := some ["  ", "  "]
  , letterspace_size := 2
  , colors := 1 }

/-- A one-font table holding the spec's concrete-scenario font. -/
def EXAMPLE_DATA : List (String × CfontsFont) := [("example", exampleFont)]

/-! ### Compositional presentations of the glyph renderer

Two per-pair presentations of the character loop. `amendedRow` inserts
the letter-spacing fragment between a consecutive pair exactly when the
earlier character is mapped (and a spacing template exists); it is proved
equal to the loop. `claimedRow` follows the claim's words instead and
inserts the fragment between every consecutive pair. -/

/-- The fragment a single character contributes to one output row: its
stripped glyph row when mapped, the spacing fragment otherwise. -/
def fragOf (font : CfontsFont) (line : Nat) (c : Char) : String :=
  match lookupChar font.chars c with
  | some charData => stripColorTags (getOrEmpty charData line)
  | none => spacingFor font line

/-- The letter-spacing fragment inserted after a character when another
character follows: present only when the character is mapped and the
font has a spacing template. -/
def insAfter (font : CfontsFont) (line : Nat) (c : Char) : String :=
  match lookupChar font.chars c, font.letterspace with
  | some _, some ls => stripColorTags (getOrEmpty ls line)
  | _, _ => ""

/-- One output row, built pairwise: each character's fragment, with
`insAfter` between consecutive pairs (never after the last character). -/
def amendedRow (font : CfontsFont) (line : Nat) : List Char → String
  | [] => ""
  | [c] => fragOf font line c
  | c :: rest => fragOf font line c ++ insAfter font line c ++ amendedRow font line rest

/-- The pairwise presentation of `renderCfonts`, inserting spacing only
after mapped characters. -/
def renderCfontsAmended (data : List (String × CfontsFont)) (text : List Char)
    (fontName : String) : Option String :=
  match lookupFont data fontName with
  | none => none
  | some font =>
    let input := text.map Char.toUpper
    let rows := (List.range font.lines).map (fun line => amendedRow font line input)
    let result := joinLines (rows.map rtrim)
    if result = "" then none else some result

/-- The letter-spacing fragment as the claim reads it: inserted after
every character followed by another one, mapped or not (when a spacing
template exists). -/
def insAfterClaimed (font : CfontsFont) (line : Nat) : String :=
  match font.letterspace with
  | some ls => stripColorTags (getOrEmpty ls line)
  | none => ""

/-- One output row following the claim's words: the spacing template is
appended once between every consecutive pair of input characters. -/
def claimedRow (font : CfontsFont) (line : Nat) : List Char → String
  | [] => ""
  | [c] => fragOf font line c
  | c :: rest => fragOf font line c ++ insAfterClaimed font line ++ claimedRow font line rest

/-- The renderer the claim describes: letter-spacing between every
consecutive pair of characters, including after unmapped ones. -/
def renderCfontsClaimed (data : List (String × CfontsFont)) (text : List Char)
    (fontName : String) : Option String :=
  match lookupFont data fontName with
  | none => none
  | some font =>
    let input := text.map Char.toUpper
    let rows := (List.range font.lines).map (fun line => claimedRow font line input)
    let result := joinLines (rows.map rtrim)
    if result = "" then none else some result

/-! ### The bitmap rasterizer (src/bitmap-renderer.ts)

The bitmapit package itself is an external collaborator; its generator is
modelled from the spec (section 4.2) below. The style table and
`renderBitmap` follow src/bitmap-renderer.ts directly. -/

/-- One entry of `BITMAP_STYLES`: a named pair of display characters over
the shared pixel font. -/
structure BitmapStyle where
  name : String
  displayName : String
  onChar : Char
  offChar : Char
deriving DecidableEq

/-- The ten bitmap style definitions of src/bitmap-renderer.ts. -/
def BITMAP_STYLES : List BitmapStyle :=
  [ { name := "bitmap-block",    displayName := "Bitmap Block",  onChar := '█', offChar := ' ' }
  , { name := "bitmap-hash",     displayName := "Bitmap Hash",   onChar := '#', offChar := ' ' }
  , { name := "bitmap-dot",      displayName := "Bitmap Dot",    onChar := '●', offChar := '·' }
  , { name := "bitmap-star",     displayName := "Bitmap Star",   onChar := '★', offChar := '·' }
  , { name := "bitmap-at",       displayName := "Bitmap @",      onChar := '@', offChar := ' ' }
  , { name := "bitmap-slash",    displayName := "Bitmap Slash",  onChar := '/', offChar := ' ' }
  , { name := "bitmap-zero-one", displayName := "Bitmap Binary", onChar := '1', offChar := '0' }
  , { name := "bitmap-braille",  displayName := "Bitmap Braille", onChar := '⣿', offChar := '⠀' }
  , { name := "bitmap-shade",    displayName := "Bitmap Shade",  onChar := '░', offChar := ' ' }
  , { name := "bitmap-cross",    displayName := "Bitmap Cross",  onChar := '╬', offChar := ' ' } ]

/-- `BITMAP_STYLE_NAMES` of src/bitmap-renderer.ts. -/
def BITMAP_STYLE_NAMES : List String := BITMAP_STYLES.map (fun s => s.name)

/-- A registered pixel font: character to boolean pixel matrix. -/
def BitmapFont : Type := List (Char × List (List Bool))

/-- Pattern lookup in the registered pixel font. -/
def lookupGlyph (font : BitmapFont) (c : Char) : Option (List (List Bool)) :=
  (font.find? (fun p => p.1 = c)).map Prod.snd

/-- Modelled from the spec: the `defaultFont` of the external bitmapit
package maps characters to fixed 8×8 boolean matrices (spec section 3);
the concrete pixel patterns are not part of the sources, so two
representative 8×8 glyphs are supplied for concrete witnesses. The
general theorems hold for any registered font. -/
def defaultFont : BitmapFont :=
  [ ('H', [ "10000001", "10000001", "10000001", "11111111"
          , "10000001", "10000001", "10000001", "00000000" ].map
          (fun r => r.data.map (fun c => c = '1')))
  , ('I', [ "11111111", "00011000", "00011000", "00011000"
          , "00011000", "00011000", "11111111", "00000000" ].map
          (fun r => r.data.map (fun c => c = '1'))) ]

/-- The per-character pixel matrices of a text, in order; `none` models
the exception the generator raises on a character with no pixel
definition (spec section 4.2, failure mode). -/
def glyphsOf (font : BitmapFont) : List Char → Option (List (List (List Bool)))
  | [] => some []
  | c :: cs =>
    match lookupGlyph font c, glyphsOf font cs with
    | some g, some gs => some (g :: gs)
    | _, _ => none

/-- Horizontal arrangement of the pixel matrices with one spacing column
of off-cells between consecutive glyphs. -/
def joinGlyphs : List (List (List Bool)) → List (List Bool)
  | [] => []
  | [g] => g
  | g :: gs => List.zipWith (fun r1 r2 => r1 ++ false :: r2) g (joinGlyphs gs)

/-- Modelled from the spec: `generateText` of the external bitmapit
generator — per-character pixel matrices arranged horizontally with
fixed one-column spacing into one combined boolean matrix; an input
character with no pixel definition raises (modelled as `none`), and an
empty input yields the empty matrix. -/
def generateText (font : BitmapFont) (text : List Char) : Option (List (List Bool)) :=
  (glyphsOf font text).map joinGlyphs

/-- One output row of `toAscii`: the style's on-character for true cells,
its off-character for false cells. -/
def asciiRows (bitmap : List (List Bool)) (onC offC : Char) : List String :=
  bitmap.map (fun row => ⟨row.map (fun b => if b then onC else offC)⟩)

/-- Modelled from the spec: `toAscii` of the external bitmapit generator —
the boolean matrix converted to text by on/off character substitution,
one output row per matrix row, rows joined by line breaks. -/
def toAscii (bitmap : List (List Bool)) (onC offC : Char) : String :=
  joinLines (asciiRows bitmap onC offC)

/-- The body of `renderBitmap` for a resolved style: matrix generation
(exceptions caught as `none`), the empty-matrix check, and the on/off
conversion with the empty-string check. -/
def renderBitmapStyled (style : BitmapStyle) (text : List Char) : Option String :=
  match generateText defaultFont text with
  | none => none
  | some bitmap =>
    if bitmap.length = 0 then none
    else
      let result := toAscii bitmap style.onChar style.offChar
      if result = "" then none else some result

/-- `renderBitmap` of src/bitmap-renderer.ts: style lookup by name, then
the rasterization body. -/
def renderBitmap (text : List Char) (styleName : String) : Option String :=
  match BITMAP_STYLES.find? (fun s => s.name = styleName) with
  | none => none
  | some style => renderBitmapStyled style text

/-- The character substitution of the style-equivalence property: style
A's on/off characters replaced by style B's, all others unchanged. -/
def substChar (onA offA onB offB c : Char) : Char :=
  if c = onA then onB else if c = offA then offB else c

/-- Character substitution applied to a whole rendered string. -/
def substStr (onA offA onB offB : Char) (s : String) : String :=
  ⟨s.data.map (substChar onA offA onB offB)⟩

/-! ### Catalog comparator (App component, `displayedFonts`) -/

/-- The source library of a catalog entry. -/
inductive FontSource
  | figlet
  | cfonts
  | bitmap
deriving DecidableEq

/-- The active library filter tab. -/
inductive LibraryFilter
  | all
  | figlet
  | cfonts
  | bitmap
deriving DecidableEq

/-- `FontEntry` of the App component. -/
structure FontEntry where
  name : String
  renderKey : String
  source : FontSource
  featured : Bool
  displayName : String
deriving DecidableEq

/-- A three-way string comparison standing in for
`String.prototype.localeCompare`; the theorems about the comparator
never depend on its result. -/
def compareStrings (a b : String) : Int :=
  if a < b then -1 else if b < a then 1 else 0

/-- The sort comparator of `displayedFonts`: featured entries first, the
figlet source before a differing source when showing all libraries, then
display-name comparison. -/
def cmpEntries (filter : LibraryFilter) (a b : FontEntry) : Int :=
  if a.featured && !b.featured then -1
  else if !a.featured && b.featured then 1
  else if filter = LibraryFilter.all && a.source ≠ b.source then
    (if a.source = FontSource.figlet then -1 else 1)
  else compareStrings a.displayName b.displayName

/-- A non-featured cfonts catalog entry, as `displayedFonts` builds it. -/
def entryCfonts : FontEntry :=
  { name := "3d", renderKey := "3d", source := FontSource.cfonts
  , featured := false, displayName := "3D" }

/-- A non-featured bitmap catalog entry, as `displayedFonts` builds it. -/
def entryBitmap : FontEntry :=
  { name := "bitmap-block", renderKey := "bitmap-block", source := FontSource.bitmap
  , featured := false, displayName := "Bitmap Block" }

/-! ### Batch font loader (App component, `loadAllFonts`)

The loader is modelled as a pure function of the font name lists and the
set of fonts whose individual load fails; each published progress event
is the snapshot of the loaded set taken after a batch. -/

/-- One batch: every font of the batch is loaded concurrently and added
to the loaded set unless its load fails; the set ignores duplicates. -/
def loadBatch (failSet : List String) (loaded : List String)
    (batch : List String) : List String :=
  batch.foldl
    (fun acc f => if failSet.contains f then acc
                  else if acc.contains f then acc else acc ++ [f])
    loaded

/-- The remaining-font loop: slices of `BATCH_SIZE = 20`, one progress
snapshot after each slice. The fuel argument (at least the list length)
only bounds the recursion and is never exhausted. -/
def loadRemainingGo (failSet : List String) :
    Nat → List String → List String → List (List String) × List String
  | _, loaded, [] => ([], loaded)
  | 0, loaded, _ => ([], loaded)
  | fuel + 1, loaded, rem@(_ :: _) =>
    let batch := rem.take 20
    let loaded1 := loadBatch failSet loaded batch
    let next := loadRemainingGo failSet fuel loaded1 (rem.drop 20)
    (loaded1 :: next.1, next.2)

/-- `loadAllFonts` of the App component: the featured batch first (one
progress snapshot), then the remaining fonts in batches of 20 (one
snapshot each). Returns the published snapshots and the final loaded
set. -/
def loadAllFonts (allFonts featured failSet : List String) :
    List (List String) × List String :=
  let loaded1 := loadBatch failSet [] featured
  let remaining := allFonts.filter (fun f => !featured.contains f)
  let next := loadRemainingGo failSet remaining.length loaded1 remaining
  (loaded1 :: next.1, next.2)

/-! ### Helper lemmas: strings and row accumulators -/

theorem str_append_empty (s : String) : s ++ "" = s := by
  cases s with
  | mk d =>
    show String.mk (d ++ []) = String.mk d
    rw [List.append_nil]

theorem str_empty_append (s : String) : "" ++ s = s := by
  cases s with
  | mk d =>
    show String.mk ([] ++ d) = String.mk d
    rw [List.nil_append]

theorem str_append_assoc (a b c : String) : a ++ b ++ c = a ++ (b ++ c) := by
  cases a with
  | mk la =>
    cases b with
    | mk lb =>
      cases c with
      | mk lc =>
        show String.mk (la ++ lb ++ lc) = String.mk (la ++ (lb ++ lc))
        rw [List.append_assoc]

theorem joinLines_ne_empty {l : List String} (h : 2 ≤ l.length) : joinLines l ≠ "" := by
  obtain ⟨a, l1, rfl⟩ : ∃ a l1, l = a :: l1 := by
    cases l with
    | nil => simp at h
    | cons a l1 => exact ⟨a, l1, rfl⟩
  obtain ⟨b, t, rfl⟩ : ∃ b t, l1 = b :: t := by
    cases l1 with
    | nil => simp at h
    | cons b t => exact ⟨b, t, rfl⟩
  intro he
  have he2 : a ++ "\n" ++ joinLines (b :: t) = "" := he
  have hlen := congrArg String.length he2
  rw [String.length_append, String.length_append] at hlen
  have h1 : ("\n" : String).length = 1 := rfl
  have h0 : ("" : String).length = 0 := rfl
  omega

theorem appendEach_const_empty (l : List String) : appendEach l (fun _ => "") = l := by
  induction l with
  | nil => rfl
  | cons s rest ih => simp [appendEach, str_append_empty, ih]

theorem appendEach_congr (l : List String) (f g : Nat → String) (h : ∀ i, f i = g i) :
    appendEach l f = appendEach l g := by
  induction l generalizing f g with
  | nil => rfl
  | cons s rest ih =>
    simp only [appendEach, h 0]
    rw [ih (fun line => f (line + 1)) (fun line => g (line + 1)) (fun i => h (i + 1))]

theorem appendEach_appendEach (l : List String) (f g : Nat → String) :
    appendEach (appendEach l f) g = appendEach l (fun i => f i ++ g i) := by
  induction l generalizing f g with
  | nil => rfl
  | cons s rest ih => simp [appendEach, ih, str_append_assoc]

theorem appendEach_replicate (n : Nat) (f : Nat → String) :
    appendEach (List.replicate n "") f = (List.range n).map f := by
  induction n generalizing f with
  | zero => rfl
  | succ m ih =>
    rw [List.replicate_succ, List.range_succ_eq_map]
    simp only [appendEach, str_empty_append, List.map_cons, List.map_map]
    rw [ih]
    rfl

/-- What one indexed character appends to the row accumulator of a given
line, read off from the branches of `processChar`. -/
def stepAppend (font : CfontsFont) (inputLen : Nat) (p : Nat × Char) (line : Nat) : String :=
  match lookupChar font.chars p.2 with
  | none => spacingFor font line
  | some charData =>
    stripColorTags (getOrEmpty charData line) ++
      (if p.1 < inputLen - 1 then
        (match font.letterspace with
         | some ls => stripColorTags (getOrEmpty ls line)
         | none => "")
       else "")

theorem processChar_eq (font : CfontsFont) (len : Nat) (acc : List String) (p : Nat × Char) :
    processChar font len acc p = appendEach acc (fun line => stepAppend font len p line) := by
  unfold processChar stepAppend
  cases hc : lookupChar font.chars p.2 with
  | none => rfl
  | some cd =>
    by_cases hi : p.1 < len - 1
    · simp only [hi, if_true]
      cases hl : font.letterspace with
      | none =>
        exact (appendEach_congr _ _ _ (fun i => (str_append_empty _).symm))
      | some ls =>
        exact appendEach_appendEach acc _ _
    · simp only [hi, if_false]
      exact (appendEach_congr _ _ _ (fun i => (str_append_empty _).symm))

/-- The total contribution of the remaining characters (starting at index
`k`) to the accumulator of one output row. -/
def tailContrib (font : CfontsFont) (inputLen : Nat) : Nat → Nat → List Char → String
  | _, _, [] => ""
  | k, line, c :: rest =>
    stepAppend font inputLen (k, c) line ++ tailContrib font inputLen (k + 1) line rest

theorem foldl_processChar (font : CfontsFont) (len : Nat) :
    ∀ (cs : List Char) (k : Nat) (acc : List String),
      (List.enumFrom k cs).foldl (processChar font len) acc
        = appendEach acc (fun line => tailContrib font len k line cs) := by
  intro cs
  induction cs with
  | nil =>
    intro k acc
    show List.foldl _ acc [] = _
    rw [List.foldl_nil]
    exact (appendEach_const_empty acc).symm
  | cons c rest ih =>
    intro k acc
    show List.foldl _ acc ((k, c) :: List.enumFrom (k + 1) rest) = _
    rw [List.foldl_cons, processChar_eq, ih, appendEach_appendEach]
    rfl

theorem renderedRows_eq (font : CfontsFont) (text : List Char) :
    renderedRows font text
      = (List.range font.lines).map
          (fun line =>
            tailContrib font (text.map Char.toUpper).length 0 line (text.map Char.toUpper)) := by
  show List.foldl (processChar font (List.map Char.toUpper text).length)
      (List.replicate font.lines "") (List.enumFrom 0 (List.map Char.toUpper text)) = _
  rw [foldl_processChar, appendEach_replicate]

theorem tailContrib_eq_amendedRow (font : CfontsFont) (line : Nat) :
    ∀ (cs : List Char) (k len : Nat), k + cs.length = len →
      tailContrib font len k line cs = amendedRow font line cs := by
  intro cs
  induction cs with
  | nil => intro k len _; rfl
  | cons c rest ih =>
    intro k len h
    cases rest with
    | nil =>
      have hk : ¬ (k < len - 1) := by
        simp only [List.length_cons, List.length_nil] at h
        omega
      show stepAppend font len (k, c) line ++ tailContrib font len (k + 1) line [] =
        fragOf font line c
      unfold stepAppend fragOf
      cases hc : lookupChar font.chars c with
      | none => exact str_append_empty _
      | some cd =>
        simp only [hk, if_false]
        show stripColorTags (getOrEmpty cd line) ++ "" ++ "" = stripColorTags (getOrEmpty cd line)
        rw [str_append_empty, str_append_empty]
    | cons c2 rest2 =>
      have hk : k < len - 1 := by
        simp only [List.length_cons] at h
        omega
      show stepAppend font len (k, c) line ++ tailContrib font len (k + 1) line (c2 :: rest2) =
        fragOf font line c ++ insAfter font line c ++ amendedRow font line (c2 :: rest2)
      rw [ih (k + 1) len (by simp only [List.length_cons] at h ⊢; omega)]
      unfold stepAppend fragOf insAfter
      cases hc : lookupChar font.chars c with
      | none =>
        show spacingFor font line ++ amendedRow font line (c2 :: rest2) =
          spacingFor font line ++ "" ++ amendedRow font line (c2 :: rest2)
        rw [str_append_empty]
      | some cd =>
        simp only [hk, if_true]
        cases hl : font.letterspace with
        | none =>
          show stripColorTags (getOrEmpty cd line) ++ "" ++ amendedRow font line (c2 :: rest2) =
            stripColorTags (getOrEmpty cd line) ++ "" ++ amendedRow font line (c2 :: rest2)
          rfl
        | some ls => rfl

theorem head?_dropWhile_ws {p : Char → Bool} :
    ∀ (l : List Char) (x : Char), (l.dropWhile p).head? = some x → p x = false := by
  intro l
  induction l with
  | nil => intro x h; cases h
  | cons a t ih =>
    intro x h
    by_cases hp : p a = true
    · rw [List.dropWhile_cons_of_pos hp] at h
      exact ih x h
    · rw [List.dropWhile_cons_of_neg hp] at h
      rw [List.head?_cons] at h
      injection h with h2
      subst h2
      simpa using hp

/-! ### Claims about the glyph-table renderer -/

/-- C2 (counterexample): the claim's insertion rule — the spacing
template appended once between every pair of consecutive input
characters, including after an unmapped character — disagrees with
`renderCfonts` on the input "T T" in the tiny font: the code inserts no
letter-spacing after the unmapped space character. -/
theorem c2_counterexample :
    renderCfonts CFONTS_DATA ['T', ' ', 'T'] "tiny" = some "▀█▀  ▀█▀\n █    █"
    ∧ renderCfontsClaimed CFONTS_DATA ['T', ' ', 'T'] "tiny" = some "▀█▀   ▀█▀\n █     █"
    ∧ renderCfonts CFONTS_DATA ['T', ' ', 'T'] "tiny"
        ≠ renderCfontsClaimed CFONTS_DATA ['T', ' ', 'T'] "tiny" := by
  refine ⟨by decide, by decide, by decide⟩

/-- C2 (amended): for every font table, input and font name, the
glyph-table renderer equals its pairwise presentation in which the
(markup-stripped) letter-spacing template is appended exactly once
between a pair of consecutive characters when the earlier character is
mapped and a spacing template exists — never after the last character,
and never after an unmapped character (which is itself rendered as the
spacing fragment). -/
theorem c2_letterspace_after_mapped_only :
    ∀ (data : List (String × CfontsFont)) (text : List Char) (name : String),
      renderCfonts data text name = renderCfontsAmended data text name := by
  intro data text name
  cases h : lookupFont data name with
  | none => simp [renderCfonts, renderCfontsAmended, h]
  | some font =>
    simp only [renderCfonts, renderCfontsAmended, joinedOf, h]
    rw [renderedRows_eq]
    rw [List.map_congr_left
      (fun line _ =>
        tailContrib_eq_amendedRow font line (text.map Char.toUpper) 0
          (text.map Char.toUpper).length (Nat.zero_add _))]

theorem c2_letterspace_after_mapped_only_witness :
    renderCfonts CFONTS_DATA ['T', 'A'] "tiny"
      = renderCfontsAmended CFONTS_DATA ['T', 'A'] "tiny" :=
  c2_letterspace_after_mapped_only CFONTS_DATA ['T', 'A'] "tiny"

/-- C1 (counterexample): "tiny" is a supported glyph-table font, yet
rendering the empty string through `renderCfonts` does not return null —
the two empty rows joined by a line break give the non-empty string
`"\n"`. -/
theorem c1_counterexample :
    (lookupFont CFONTS_DATA "tiny").isSome = true
    ∧ renderCfonts CFONTS_DATA [] "tiny" = some "\n"
    ∧ renderCfonts CFONTS_DATA [] "tiny" ≠ none := by
  refine ⟨by decide, by decide, by decide⟩

/-- C1 (amended): rendering the empty string yields null exactly for
glyph-table fonts with at most one output row; a font with two or more
rows yields the non-null join of its blank rows (one line break per
adjacent pair). Rendering the empty string through the bitmap rasterizer
yields null for every style name. -/
theorem c1_empty_input :
    (∀ (data : List (String × CfontsFont)) (name : String) (font : CfontsFont),
        lookupFont data name = some font →
          renderCfonts data [] name =
            (if font.lines ≤ 1 then none
             else some (joinLines (List.replicate font.lines ""))))
    ∧ (∀ styleName : String, renderBitmap [] styleName = none) := by
  constructor
  · intro data name font h
    simp only [renderCfonts, joinedOf, h]
    have hrows : renderedRows font [] = List.replicate font.lines "" := by
      rw [renderedRows_eq]
      show (List.range font.lines).map (fun _ => "") = _
      rw [List.map_const', List.length_range]
    rw [hrows, List.map_replicate]
    have hrt : rtrim "" = "" := rfl
    rw [hrt]
    match hL : font.lines with
    | 0 => rfl
    | 1 => rfl
    | L + 2 =>
      have hne : joinLines (List.replicate (L + 2) "") ≠ "" :=
        joinLines_ne_empty (by simp)
      rw [if_neg hne, if_neg (by omega)]
  · intro styleName
    unfold renderBitmap
    cases hf : BITMAP_STYLES.find? (fun s => s.name = styleName) with
    | none => rfl
    | some style => rfl

theorem c1_empty_input_witness :
    renderCfonts CFONTS_DATA [] "tiny" = some (joinLines (List.replicate 2 ""))
    ∧ renderBitmap [] "bitmap-hash" = none := by
  constructor
  · have h := c1_empty_input.1 CFONTS_DATA "tiny" tinyFont (by decide)
    exact h
  · exact c1_empty_input.2 "bitmap-hash"

/-- C3: for every font table and font, a character whose (upper-cased)
form is absent from the glyph table renders, as a one-character string,
by appending to each of the `lines` row accumulators exactly the
(markup-stripped) spacing-template row; the result is the post-processed
join of those spacing rows, and when the font has no spacing template the
fragment defaults to two spaces. -/
theorem c3_unmapped_char_spacing :
    ∀ (data : List (String × CfontsFont)) (name : String) (font : CfontsFont) (c : Char),
      lookupFont data name = some font →
      lookupChar font.chars (Char.toUpper c) = none →
        (renderCfonts data [c] name =
          (let rows := (List.range font.lines).map (fun line => spacingFor font line)
           let r := joinLines (rows.map rtrim)
           if r = "" then none else some r))
        ∧ (font.letterspace = none → ∀ line, spacingFor font line = "  ") := by
  intro data name font c hf hc
  constructor
  · simp only [renderCfonts, joinedOf, hf]
    rw [renderedRows_eq]
    have hline : ∀ line ∈ List.range font.lines,
        tailContrib font ([c].map Char.toUpper).length 0 line ([c].map Char.toUpper)
          = spacingFor font line := by
      intro line _
      show stepAppend font 1 (0, Char.toUpper c) line ++ tailContrib font 1 1 line [] =
        spacingFor font line
      unfold stepAppend
      rw [show tailContrib font 1 1 line [] = "" from rfl]
      simp only [hc]
      exact str_append_empty _
    rw [List.map_congr_left hline]
  · intro h line
    simp [spacingFor, h]

theorem c3_unmapped_char_spacing_witness :
    (renderCfonts CFONTS_DATA [' '] "tiny" =
      (let rows := (List.range tinyFont.lines).map (fun line => spacingFor tinyFont line)
       let r := joinLines (rows.map rtrim)
       if r = "" then none else some r))
    ∧ (tinyFont.letterspace = none → ∀ line, spacingFor tinyFont line = "  ") :=
  c3_unmapped_char_spacing CFONTS_DATA "tiny" tinyFont ' ' (by decide) (by decide)

/-- C4: `renderCfonts` returns null exactly when the font name is not in
the font table or the final joined string (rows trimmed of trailing
whitespace, joined by line breaks) is empty; otherwise it returns that
joined string. -/
theorem c4_null_iff :
    ∀ (data : List (String × CfontsFont)) (text : List Char) (name : String),
      (renderCfonts data text name = none ↔
        lookupFont data name = none ∨
          ∃ font, lookupFont data name = some font ∧ joinedOf font text = "")
      ∧ (∀ font, lookupFont data name = some font → joinedOf font text ≠ "" →
          renderCfonts data text name = some (joinedOf font text)) := by
  intro data text name
  cases hf : lookupFont data name with
  | none =>
    constructor
    · simp [renderCfonts, hf]
    · intro font h
      exact Option.noConfusion h
  | some font =>
    constructor
    · by_cases hj : joinedOf font text = ""
      · simp [renderCfonts, hf, hj]
      · simp [renderCfonts, hf, hj]
    · intro font' h hne
      injection h with h2
      subst h2
      simp [renderCfonts, hf, hne]

theorem c4_null_iff_witness :
    renderCfonts CFONTS_DATA ['T'] "tiny" = some (joinedOf tinyFont ['T']) :=
  (c4_null_iff CFONTS_DATA ['T'] "tiny").2 tinyFont (by decide) (by decide)

/-- C5: the spec's concrete scenario — a two-row font mapping 'A' to the
rows "/\", "/  \" with a two-space spacing template renders "A" as
"/\" then a line break then "/  \" — and, in general, the per-row trim
removes exactly a (whitespace-only) suffix of the row, leaving the
remaining row — hence every leading or internal character — unchanged,
and the trimmed row never ends in a whitespace character. -/
theorem c5_concrete_and_rtrim :
    renderCfonts EXAMPLE_DATA ['A'] "example" = some "/\\\n/  \\"
    ∧ (∀ s : String, ∃ t : String,
        s = rtrim s ++ t
        ∧ (∀ c ∈ t.data, wsChar c = true)
        ∧ (∀ c, (rtrim s).data.getLast? = some c → wsChar c = false)) := by
  constructor
  · decide
  · intro s
    refine ⟨⟨(s.data.reverse.takeWhile wsChar).reverse⟩, ?_, ?_, ?_⟩
    · have hdata : s.data =
          (s.data.reverse.dropWhile wsChar).reverse ++ (s.data.reverse.takeWhile wsChar).reverse := by
        conv_rhs => rw [← List.reverse_append]
        rw [List.takeWhile_append_dropWhile, List.reverse_reverse]
      have hs : s = String.mk s.data := by cases s; rfl
      conv_lhs => rw [hs, hdata]
      rfl
    · intro c hcmem
      rw [List.mem_reverse] at hcmem
      exact List.mem_takeWhile_imp hcmem
    · intro c hlast
      have hlast2 : ((s.data.reverse.dropWhile wsChar).reverse).getLast? = some c := hlast
      rw [List.getLast?_reverse] at hlast2
      exact head?_dropWhile_ws _ c hlast2

theorem c5_concrete_and_rtrim_witness :
    ∃ t : String,
      "a " = rtrim "a " ++ t
      ∧ (∀ c ∈ t.data, wsChar c = true)
      ∧ (∀ c, (rtrim "a ").data.getLast? = some c → wsChar c = false) :=
  c5_concrete_and_rtrim.2 "a "

/-- C8: a glyph-table font with at least two output rows never renders to
null: the joined result always contains a line break, so the empty-string
check cannot fire. -/
theorem c8_two_lines_never_null :
    ∀ (data : List (String × CfontsFont)) (name : String) (font : CfontsFont) (text : List Char),
      lookupFont data name = some font → 2 ≤ font.lines →
        ∃ s, renderCfonts data text name = some s := by
  intro data name font text hf h2
  refine ⟨joinedOf font text, ?_⟩
  have hne : joinedOf font text ≠ "" := by
    unfold joinedOf
    refine joinLines_ne_empty ?_
    rw [List.length_map, renderedRows_eq, List.length_map, List.length_range]
    exact h2
  simp [renderCfonts, hf, hne]

theorem c8_two_lines_never_null_witness :
    ∃ s, renderCfonts CFONTS_DATA ['T'] "tiny" = some s :=
  c8_two_lines_never_null CFONTS_DATA "tiny" tinyFont ['T'] (by decide) (by decide)

/-! ### Helper lemmas: bitmap styles and substitution -/

theorem find?_style_self (A : BitmapStyle) (hA : A ∈ BITMAP_STYLES) :
    BITMAP_STYLES.find? (fun s => s.name = A.name) = some A := by
  fin_cases hA <;> decide

theorem style_chars_ok (A : BitmapStyle) (hA : A ∈ BITMAP_STYLES) :
    A.onChar ≠ A.offChar ∧ A.onChar ≠ '\n' ∧ A.offChar ≠ '\n' := by
  fin_cases hA <;> exact ⟨by decide, by decide, by decide⟩

theorem substStr_append (onA offA onB offB : Char) (a b : String) :
    substStr onA offA onB offB (a ++ b)
      = substStr onA offA onB offB a ++ substStr onA offA onB offB b := by
  cases a with
  | mk la =>
    cases b with
    | mk lb =>
      show String.mk ((la ++ lb).map _) = String.mk (la.map _ ++ lb.map _)
      rw [List.map_append]

theorem substStr_newline (onA offA onB offB : Char)
    (h1 : ('\n' : Char) ≠ onA) (h2 : ('\n' : Char) ≠ offA) :
    substStr onA offA onB offB "\n" = "\n" := by
  show String.mk [substChar onA offA onB offB '\n'] = String.mk ['\n']
  unfold substChar
  rw [if_neg h1, if_neg h2]

theorem substStr_joinLines (onA offA onB offB : Char)
    (h1 : ('\n' : Char) ≠ onA) (h2 : ('\n' : Char) ≠ offA) :
    ∀ (rows : List String),
      substStr onA offA onB offB (joinLines rows)
        = joinLines (rows.map (substStr onA offA onB offB)) := by
  intro rows
  induction rows with
  | nil => rfl
  | cons r rest ih =>
    cases rest with
    | nil => rfl
    | cons r2 rest2 =>
      show substStr onA offA onB offB (r ++ "\n" ++ joinLines (r2 :: rest2))
        = substStr onA offA onB offB r ++ "\n"
            ++ joinLines ((r2 :: rest2).map (substStr onA offA onB offB))
      rw [substStr_append, substStr_append, substStr_newline onA offA onB offB h1 h2, ih]

theorem substStr_row (onA offA onB offB : Char) (hon : offA ≠ onA) (row : List Bool) :
    (row.map (fun b => if b then onA else offA)).map (substChar onA offA onB offB)
      = row.map (fun b => if b then onB else offB) := by
  rw [List.map_map]
  refine List.map_congr_left ?_
  intro b _
  cases b with
  | true => simp [Function.comp, substChar]
  | false => simp [Function.comp, substChar, hon]

theorem substStr_toAscii (onA offA onB offB : Char)
    (hon : offA ≠ onA) (h1 : ('\n' : Char) ≠ onA) (h2 : ('\n' : Char) ≠ offA)
    (bitmap : List (List Bool)) :
    substStr onA offA onB offB (toAscii bitmap onA offA) = toAscii bitmap onB offB := by
  unfold toAscii
  rw [substStr_joinLines onA offA onB offB h1 h2]
  congr 1
  unfold asciiRows
  rw [List.map_map]
  refine List.map_congr_left ?_
  intro row _
  show String.mk ((row.map (fun b => if b then onA else offA)).map (substChar onA offA onB offB))
    = String.mk (row.map (fun b => if b then onB else offB))
  rw [substStr_row onA offA onB offB hon row]

theorem renderBitmapStyled_some (style : BitmapStyle) (text : List Char) (out : String)
    (h : renderBitmapStyled style text = some out) :
    ∃ bm, generateText defaultFont text = some bm ∧ bm.length ≠ 0
      ∧ out = toAscii bm style.onChar style.offChar := by
  unfold renderBitmapStyled at h
  cases hg : generateText defaultFont text with
  | none => rw [hg] at h; cases h
  | some bm =>
    rw [hg] at h
    have h2 : (if bm.length = 0 then none
               else if toAscii bm style.onChar style.offChar = "" then none
                    else some (toAscii bm style.onChar style.offChar)) = some out := h
    by_cases hb : bm.length = 0
    · rw [if_pos hb] at h2; cases h2
    · rw [if_neg hb] at h2
      by_cases ht : toAscii bm style.onChar style.offChar = ""
      · rw [if_pos ht] at h2; cases h2
      · rw [if_neg ht] at h2
        injection h2 with h3
        exact ⟨bm, rfl, hb, h3.symm⟩

theorem renderBitmapStyled_none_iff (style : BitmapStyle) (text : List Char) :
    renderBitmapStyled style text = none ↔
      generateText defaultFont text = none
      ∨ ∃ bm, generateText defaultFont text = some bm
          ∧ (bm = [] ∨ toAscii bm style.onChar style.offChar = "") := by
  unfold renderBitmapStyled
  cases hg : generateText defaultFont text with
  | none => simp
  | some bm =>
    show (if bm.length = 0 then none
          else if toAscii bm style.onChar style.offChar = "" then none
               else some (toAscii bm style.onChar style.offChar)) = none ↔ _
    by_cases hb : bm.length = 0
    · simp [hb, List.length_eq_zero.mp hb]
    · have hbne : bm ≠ [] := fun h => hb (by rw [h]; rfl)
      by_cases ht : toAscii bm style.onChar style.offChar = ""
      · simp [hb, ht, hbne]
      · simp [hb, ht, hbne]

/-! ### Claims about the bitmap rasterizer -/

/-- C6: two bitmap styles render any text over the same generated boolean
matrix: their outputs are the row-joined conversions of one shared
bitmap, have the same row count and the same per-row lengths, and
substituting style A's on/off characters by style B's in A's output
yields exactly B's output. -/
theorem c6_style_geometry_and_substitution :
    ∀ (text : List Char) (A B : BitmapStyle), A ∈ BITMAP_STYLES → B ∈ BITMAP_STYLES →
      ∀ outA outB,
        renderBitmap text A.name = some outA → renderBitmap text B.name = some outB →
        ∃ bitmap,
          outA = toAscii bitmap A.onChar A.offChar
          ∧ outB = toAscii bitmap B.onChar B.offChar
          ∧ (asciiRows bitmap A.onChar A.offChar).length
              = (asciiRows bitmap B.onChar B.offChar).length
          ∧ (asciiRows bitmap A.onChar A.offChar).map String.length
              = (asciiRows bitmap B.onChar B.offChar).map String.length
          ∧ substStr A.onChar A.offChar B.onChar B.offChar outA = outB := by
  intro text A B hA hB outA outB hOutA hOutB
  unfold renderBitmap at hOutA hOutB
  rw [find?_style_self A hA] at hOutA
  rw [find?_style_self B hB] at hOutB
  have hA2 : renderBitmapStyled A text = some outA := hOutA
  have hB2 : renderBitmapStyled B text = some outB := hOutB
  obtain ⟨bmA, hgA, _, houtA⟩ := renderBitmapStyled_some A text outA hA2
  obtain ⟨bmB, hgB, _, houtB⟩ := renderBitmapStyled_some B text outB hB2
  rw [hgA] at hgB
  injection hgB with hbm
  subst hbm
  obtain ⟨hAon, hAn1, hAn2⟩ := style_chars_ok A hA
  refine ⟨bmA, houtA, houtB, ?_, ?_, ?_⟩
  · unfold asciiRows
    rw [List.length_map, List.length_map]
  · unfold asciiRows
    rw [List.map_map, List.map_map]
    refine List.map_congr_left ?_
    intro row _
    show (row.map (fun b => if b then A.onChar else A.offChar)).length
      = (row.map (fun b => if b then B.onChar else B.offChar)).length
    rw [List.length_map, List.length_map]
  · rw [houtA, houtB]
    exact substStr_toAscii A.onChar A.offChar B.onChar B.offChar
      (Ne.symm hAon) (Ne.symm hAn1) (Ne.symm hAn2) bmA

theorem c6_style_geometry_and_substitution_witness :
    ∃ bitmap,
      ("#      # ########\n#      #    ##   \n#      #    ##   \n########    ##   \n#      #    ##   \n#      #    ##   \n#      # ########\n                 " : String)
        = toAscii bitmap '#' ' '
      ∧ ("10000001011111111\n10000001000011000\n10000001000011000\n11111111000011000\n10000001000011000\n10000001000011000\n10000001011111111\n00000000000000000" : String)
        = toAscii bitmap '1' '0'
      ∧ (asciiRows bitmap '#' ' ').length = (asciiRows bitmap '1' '0').length
      ∧ (asciiRows bitmap '#' ' ').map String.length
          = (asciiRows bitmap '1' '0').map String.length
      ∧ substStr '#' ' ' '1' '0'
          "#      # ########\n#      #    ##   \n#      #    ##   \n########    ##   \n#      #    ##   \n#      #    ##   \n#      # ########\n                 "
          = "10000001011111111\n10000001000011000\n10000001000011000\n11111111000011000\n10000001000011000\n10000001000011000\n10000001011111111\n00000000000000000" :=
  c6_style_geometry_and_substitution ['H', 'I']
    ⟨"bitmap-hash", "Bitmap Hash", '#', ' '⟩
    ⟨"bitmap-zero-one", "Bitmap Binary", '1', '0'⟩
    (by decide) (by decide) _ _ (by decide) (by decide)

/-- C7: the bitmap rasterizer returns null exactly when the style name
resolves to no defined style, the matrix generation raises (modelled as
`none`), the generated matrix is empty, or the converted string is
empty; being a total function into `Option`, no exception escapes it. -/
theorem c7_null_conditions :
    ∀ (text : List Char) (styleName : String),
      renderBitmap text styleName = none ↔
        BITMAP_STYLES.find? (fun s => s.name = styleName) = none
        ∨ ∃ style, BITMAP_STYLES.find? (fun s => s.name = styleName) = some style
            ∧ (generateText defaultFont text = none
               ∨ ∃ bm, generateText defaultFont text = some bm
                   ∧ (bm = [] ∨ toAscii bm style.onChar style.offChar = "")) := by
  intro text styleName
  unfold renderBitmap
  cases hf : BITMAP_STYLES.find? (fun s => s.name = styleName) with
  | none => simp
  | some style =>
    show renderBitmapStyled style text = none ↔ _
    rw [renderBitmapStyled_none_iff style text]
    simp

theorem c7_null_conditions_witness :
    renderBitmap ['H'] "no-such-style" = none :=
  (c7_null_conditions ['H'] "no-such-style").mpr (Or.inl (by decide))

/-! ### Helper lemmas: batch loader -/

theorem loadBatch_append (failSet loaded a b : List String) :
    loadBatch failSet loaded (a ++ b) = loadBatch failSet (loadBatch failSet loaded a) b :=
  List.foldl_append _ _ a b

theorem loadRemainingGo_events_len (failSet : List String) :
    ∀ (fuel : Nat) (rem loaded : List String), rem.length ≤ fuel →
      (loadRemainingGo failSet fuel loaded rem).1.length = (rem.length + 19) / 20 := by
  intro fuel
  induction fuel with
  | zero =>
    intro rem loaded h
    have hrem : rem = [] := List.length_eq_zero.mp (Nat.le_zero.mp h)
    subst hrem
    rfl
  | succ n ih =>
    intro rem loaded h
    cases rem with
    | nil => rfl
    | cons r rs =>
      show ((loadBatch failSet loaded ((r :: rs).take 20))
          :: (loadRemainingGo failSet n (loadBatch failSet loaded ((r :: rs).take 20))
                ((r :: rs).drop 20)).1).length = _
      rw [List.length_cons,
        ih ((r :: rs).drop 20) _ (by rw [List.length_drop]; omega)]
      rw [List.length_drop]
      have hlen : 1 ≤ (r :: rs).length := by simp
      omega

theorem loadRemainingGo_final (failSet : List String) :
    ∀ (fuel : Nat) (rem loaded : List String), rem.length ≤ fuel →
      (loadRemainingGo failSet fuel loaded rem).2 = loadBatch failSet loaded rem := by
  intro fuel
  induction fuel with
  | zero =>
    intro rem loaded h
    have hrem : rem = [] := List.length_eq_zero.mp (Nat.le_zero.mp h)
    subst hrem
    rfl
  | succ n ih =>
    intro rem loaded h
    cases rem with
    | nil => rfl
    | cons r rs =>
      show (loadRemainingGo failSet n (loadBatch failSet loaded ((r :: rs).take 20))
          ((r :: rs).drop 20)).2 = _
      rw [ih ((r :: rs).drop 20) _ (by rw [List.length_drop]; omega)]
      rw [← loadBatch_append, List.take_append_drop]

theorem loadBatch_eq (failSet : List String) :
    ∀ (batch loaded : List String), (∀ f ∈ batch, f ∉ loaded) → batch.Nodup →
      loadBatch failSet loaded batch
        = loaded ++ batch.filter (fun f => !failSet.contains f) := by
  intro batch
  induction batch with
  | nil =>
    intro loaded _ _
    show loaded = loaded ++ []
    rw [List.append_nil]
  | cons b bs ih =>
    intro loaded hnin hnd
    have hstep0 : loadBatch failSet loaded (b :: bs)
        = loadBatch failSet
            (if failSet.contains b = true then loaded
             else if loaded.contains b = true then loaded else loaded ++ [b]) bs := rfl
    rw [hstep0]
    cases hfail : failSet.contains b with
    | true =>
      rw [if_pos rfl]
      have hcond : ¬ ((fun f => !failSet.contains f) b = true) := by
        simp only [hfail]
        decide
      rw [@List.filter_cons_of_neg String (fun f => !failSet.contains f) b bs hcond]
      exact ih loaded (fun f hf => hnin f (List.mem_cons_of_mem b hf)) hnd.of_cons
    | false =>
      have hbl : ¬ (loaded.contains b = true) := by
        intro hc
        exact hnin b (List.mem_cons_self b bs) (List.elem_iff.mp hc)
      rw [if_neg (by decide), if_neg hbl]
      have hcond : (fun f => !failSet.contains f) b = true := by
        simp only [hfail]
        decide
      rw [@List.filter_cons_of_pos String (fun f => !failSet.contains f) b bs hcond]
      have h1 : ∀ f ∈ bs, f ∉ loaded ++ [b] := by
        intro f hf
        rw [List.mem_append]
        rintro (hfl | hfb)
        · exact hnin f (List.mem_cons_of_mem b hf) hfl
        · rw [List.mem_singleton] at hfb
          subst hfb
          exact (List.nodup_cons.mp hnd).1 hf
      rw [ih (loaded ++ [b]) h1 hnd.of_cons, List.append_assoc, List.singleton_append]

/-! ### Claims about the catalog comparator and the batch loader -/

/-- C9: the `displayedFonts` comparator, evaluated on a non-featured
cfonts entry and a non-featured bitmap entry under the "all" filter,
orders each AFTER the other (both comparisons return 1): the comparator
is not a consistent ordering between the two non-figlet sources, so no
arrangement containing entries of both sources is sorted with respect to
it — grouping cfonts and bitmap entries is not established by the code. -/
theorem c9_comparator_inconsistent :
    cmpEntries LibraryFilter.all entryCfonts entryBitmap = 1
    ∧ cmpEntries LibraryFilter.all entryBitmap entryCfonts = 1
    ∧ ¬ List.Pairwise (fun a b => cmpEntries LibraryFilter.all a b ≤ 0)
        [entryCfonts, entryBitmap]
    ∧ ¬ List.Pairwise (fun a b => cmpEntries LibraryFilter.all a b ≤ 0)
        [entryBitmap, entryCfonts] := by
  refine ⟨by decide, by decide, ?_, ?_⟩
  · intro h
    have h2 := (List.pairwise_cons.mp h).1 entryBitmap (List.mem_singleton.mpr rfl)
    rw [show cmpEntries LibraryFilter.all entryCfonts entryBitmap = 1 from by decide] at h2
    exact absurd h2 (by decide)
  · intro h
    have h2 := (List.pairwise_cons.mp h).1 entryCfonts (List.mem_singleton.mpr rfl)
    rw [show cmpEntries LibraryFilter.all entryBitmap entryCfonts = 1 from by decide] at h2
    exact absurd h2 (by decide)

/-- C10: for distinct font names with the featured fonts among them, the
batch loader publishes exactly `ceil((N - featuredCount)/20) + 1`
progress snapshots (one after the featured batch, one per batch of 20
remaining fonts); with no failing font the final loaded set has exactly
N elements, and in general each failing font reduces it by exactly
one. -/
theorem c10_batch_loading :
    ∀ (allFonts featured failSet : List String),
      allFonts.Nodup → featured.Nodup → (∀ f ∈ featured, f ∈ allFonts) →
        ((loadAllFonts allFonts featured failSet).1.length
            = (allFonts.length - featured.length + 19) / 20 + 1)
        ∧ ((∀ f ∈ allFonts, f ∉ failSet) →
            (loadAllFonts allFonts featured failSet).2.length = allFonts.length)
        ∧ ((loadAllFonts allFonts featured failSet).2.length
            = allFonts.length
              - (allFonts.filter (fun f => failSet.contains f)).length) := by
  intro allFonts featured failSet hndA hndF hsub
  have hremlen : (allFonts.filter (fun f => !featured.contains f)).length
      = allFonts.length - featured.length := by
    have hperm := List.filter_append_perm (fun f => featured.contains f) allFonts
    have hlen := hperm.length_eq
    rw [List.length_append] at hlen
    have hpf : (allFonts.filter (fun f => featured.contains f)).Perm featured := by
      rw [List.perm_ext_iff_of_nodup (hndA.filter _) hndF]
      intro a
      rw [List.mem_filter]
      constructor
      · rintro ⟨_, hc⟩
        exact List.elem_iff.mp hc
      · intro haf
        exact ⟨hsub a haf, List.elem_iff.mpr haf⟩
    have hpl := hpf.length_eq
    omega
  have hndRem : (allFonts.filter (fun f => !featured.contains f)).Nodup := hndA.filter _
  have hdisj : featured.Disjoint (allFonts.filter (fun f => !featured.contains f)) := by
    intro a haf harem
    rw [List.mem_filter] at harem
    have hc := harem.2
    have hc2 : featured.contains a = true := List.elem_iff.mpr haf
    rw [hc2] at hc
    exact absurd hc (by decide)
  have hndApp : (featured ++ allFonts.filter (fun f => !featured.contains f)).Nodup :=
    hndF.append hndRem hdisj
  have hpermAll :
      (featured ++ allFonts.filter (fun f => !featured.contains f)).Perm allFonts := by
    rw [List.perm_ext_iff_of_nodup hndApp hndA]
    intro a
    rw [List.mem_append, List.mem_filter]
    constructor
    · rintro (haf | ⟨hal, _⟩)
      · exact hsub a haf
      · exact hal
    · intro hal
      by_cases haf : a ∈ featured
      · exact Or.inl haf
      · refine Or.inr ⟨hal, ?_⟩
        have hc : featured.contains a = false := by
          cases hc2 : featured.contains a with
          | false => rfl
          | true => exact absurd (List.elem_iff.mp hc2) haf
        rw [hc]
        rfl
  have hfinal : (loadAllFonts allFonts featured failSet).2
      = (featured ++ allFonts.filter (fun f => !featured.contains f)).filter
          (fun f => !failSet.contains f) := by
    show (loadRemainingGo failSet (allFonts.filter (fun f => !featured.contains f)).length
        (loadBatch failSet [] featured) (allFonts.filter (fun f => !featured.contains f))).2 = _
    rw [loadRemainingGo_final failSet _ _ _ (Nat.le_refl _), ← loadBatch_append,
      loadBatch_eq failSet _ [] (by simp) hndApp, List.nil_append]
  have hflen : (loadAllFonts allFonts featured failSet).2.length
      = (allFonts.filter (fun f => !failSet.contains f)).length := by
    rw [hfinal]
    exact (hpermAll.filter _).length_eq
  have hsplit := (List.filter_append_perm (fun f => failSet.contains f) allFonts).length_eq
  rw [List.length_append] at hsplit
  refine ⟨?_, ?_, ?_⟩
  · show ((loadBatch failSet [] featured)
        :: (loadRemainingGo failSet (allFonts.filter (fun f => !featured.contains f)).length
              (loadBatch failSet [] featured)
              (allFonts.filter (fun f => !featured.contains f))).1).length = _
    rw [List.length_cons, loadRemainingGo_events_len failSet _ _ _ (Nat.le_refl _), hremlen]
  · intro hnofail
    have hnone : allFonts.filter (fun f => failSet.contains f) = [] := by
      rw [List.filter_eq_nil_iff]
      intro a ha
      intro hc
      exact hnofail a ha (List.elem_iff.mp hc)
    rw [hflen]
    rw [hnone, List.length_nil] at hsplit
    omega
  · rw [hflen]
    omega

theorem c10_batch_loading_witness :
    ((loadAllFonts ["a", "b", "c"] ["a"] ["b"]).1.length
        = (["a", "b", "c"].length - ["a"].length + 19) / 20 + 1)
    ∧ ((∀ f ∈ ["a", "b", "c"], f ∉ ["b"]) →
        (loadAllFonts ["a", "b", "c"] ["a"] ["b"]).2.length = ["a", "b", "c"].length)
    ∧ ((loadAllFonts ["a", "b", "c"] ["a"] ["b"]).2.length
        = ["a", "b", "c"].length
          - (["a", "b", "c"].filter (fun f => ["b"].contains f)).length) :=
  c10_batch_loading ["a", "b", "c"] ["a"] ["b"] (by decide) (by decide) (by decide)
